import Mathlib

/-!
Verification of the SEC filing scraper (`sec_downloader.py`).

The development embeds the document-extraction pipeline of the scraper:

* sub-document selection over the raw filing blob
  (`_download_and_parse_report`, lines 199-216),
* the markup normalizer used before table parsing
  (`_extract_tables_to_excel`, lines 134-140),
* the MD&A narrative extraction (`_extract_mda_text`),
* the table trim/filter/emit pipeline (`_extract_tables_to_excel`),
* the per-filing orchestration and its error propagation.

Strings are modelled as `List Char`; the tolerant external HTML-table
parser (pandas `read_html`) is an abstract parameter of the table
pipeline, as it is an external collaborator of the scraper.
-/

set_option maxHeartbeats 1000000

/-! ## Sub-document selection (string level)

`_download_and_parse_report` scans the raw filing text with the regexes
`<DOCUMENT>`, `</DOCUMENT>` and `<TYPE>[^\n]+`, pairs start/end markers
positionally, and keeps the longest region whose type line contains the
target form type. -/

def docStartPat : List Char := "<DOCUMENT>".toList

def docEndPat : List Char := "</DOCUMENT>".toList

def typePat : List Char := "<TYPE>".toList

/-- All start positions of non-overlapping occurrences of `pat`,
scanning left to right (the semantics of `re.finditer` on a literal
pattern).  `fuel` is the length of the text, enough for the scan. -/
def scanOccsF (pat : List Char) : Nat → List Char → Nat → List Nat
  | 0, _, _ => []
  | _, [], _ => []
  | fuel+1, c :: rest, pos =>
    if pat.isPrefixOf (c :: rest) then
      pos :: scanOccsF pat fuel (List.drop (pat.length - 1) rest) (pos + pat.length)
    else
      scanOccsF pat fuel rest (pos + 1)

def scanOccs (pat s : List Char) : List Nat := scanOccsF pat s.length s 0

/-- Python list `doc_start_indices`: `m.end()` of each `<DOCUMENT>` match. -/
def docStartIdxs (s : List Char) : List Nat :=
  (scanOccs docStartPat s).map (fun p => p + docStartPat.length)

/-- Python list `doc_end_indices`: `m.start()` of each `</DOCUMENT>` match. -/
def docEndIdxs (s : List Char) : List Nat := scanOccs docEndPat s

/-- Python slice `s[a:b]` for natural indices. -/
def pySlice (s : List Char) (a b : Nat) : List Char := (s.take b).drop a

/-- Does the regex `<TYPE>[^\n]+` match at the head of `s`? -/
def typeMatchHere (s : List Char) : Bool :=
  typePat.isPrefixOf s &&
    (match s.drop typePat.length with
     | d :: _ => d != '\n'
     | [] => false)

/-- Model of `re.search` of `<TYPE>[^\n]+`: the leftmost match, with the greedy
`[^\n]+` extending to the end of the line. -/
def typeSearch : List Char → Option (List Char)
  | [] => none
  | c :: rest =>
    if typeMatchHere (c :: rest) then
      some (typePat ++ ((c :: rest).drop typePat.length).takeWhile (fun d => d != '\n'))
    else typeSearch rest

/-- A region qualifies when its type line exists and contains the target
form type as a (case-sensitive) substring: `form_type in type_match.group(0)`. -/
def qualifies (ft content : List Char) : Bool :=
  match typeSearch content with
  | some g => decide (ft <:+: g)
  | none => false

/-- The selection loop of `_download_and_parse_report`: iterate over
`range(len(doc_start_indices))`, index `doc_end_indices[i]` (an
out-of-range access raises `IndexError`, modelled by `.error ()`), and
keep the strictly longest qualifying region. -/
def selectAux (ft full : List Char) : List Nat → List Nat → List Char →
    Except Unit (List Char)
  | [], _, main => .ok main
  | _ :: _, [], _ => .error ()
  | st :: sts, en :: ens, main =>
    let content := pySlice full st en
    let main' :=
      if qualifies ft content && decide (main.length < content.length) then content
      else main
    selectAux ft full sts ens main'

/-- Whole sub-document selection: `none` models the
"Could not find a suitable document" skip. -/
def selectMainDoc (full ft : List Char) : Except Unit (Option (List Char)) :=
  match selectAux ft full (docStartIdxs full) (docEndIdxs full) [] with
  | .error e => .error e
  | .ok m => .ok (if m.isEmpty then none else some m)

/-- The regions the loop slices out: positional pairs of start/end markers. -/
def regionsOf (full : List Char) : List (List Char) :=
  ((docStartIdxs full).zip (docEndIdxs full)).map (fun se => pySlice full se.1 se.2)

/-- The qualifying regions, in order of occurrence. -/
def candidates (full ft : List Char) : List (List Char) :=
  (regionsOf full).filter (qualifies ft)

/-- The running-maximum fold underlying the selection loop. -/
def pickMax (acc : List Char) : List (List Char) → List Char
  | [] => acc
  | c :: cs => pickMax (if acc.length < c.length then c else acc) cs

theorem selectAux_ok (ft full : List Char) :
    ∀ (sts ens : List Nat) (acc m : List Char),
      selectAux ft full sts ens acc = .ok m →
      m = pickMax acc
        (((sts.zip ens).map (fun se => pySlice full se.1 se.2)).filter (qualifies ft))
  | [], _, acc, m, h => by
      simp only [selectAux, Except.ok.injEq] at h
      simp [pickMax, ← h]
  | _ :: _, [], acc, m, h => by
      simp [selectAux] at h
  | st :: sts, en :: ens, acc, m, h => by
      simp only [selectAux] at h
      have ih := selectAux_ok ft full sts ens _ m h
      by_cases hq : qualifies ft (pySlice full st en)
      · simpa [List.zip_cons_cons, hq, pickMax] using ih
      · simpa [List.zip_cons_cons, hq, pickMax] using ih

theorem pickMax_cases : ∀ (cs : List (List Char)) (acc : List Char),
    (pickMax acc cs = acc ∧ ∀ y ∈ cs, y.length ≤ acc.length) ∨
    (∃ l₁ c l₂, cs = l₁ ++ c :: l₂ ∧ pickMax acc cs = c ∧ acc.length < c.length ∧
      (∀ x ∈ l₁, x.length < c.length) ∧ (∀ y ∈ l₂, y.length ≤ c.length))
  | [], acc => by
      left
      simp [pickMax]
  | c :: cs, acc => by
      by_cases h : acc.length < c.length
      · rcases pickMax_cases cs c with ⟨heq, hbd⟩ | ⟨l₁, d, l₂, hsplit, heq, hlt, hl₁, hl₂⟩
        · right
          refine ⟨[], c, cs, by simp, ?_, h, by simp, hbd⟩
          simp [pickMax, h, heq]
        · right
          refine ⟨c :: l₁, d, l₂, by simp [hsplit], ?_, lt_trans h hlt, ?_, hl₂⟩
          · simp [pickMax, h, heq]
          · intro x hx
            rcases List.mem_cons.mp hx with rfl | hx
            · exact hlt
            · exact hl₁ x hx
      · rcases pickMax_cases cs acc with ⟨heq, hbd⟩ | ⟨l₁, d, l₂, hsplit, heq, hlt, hl₁, hl₂⟩
        · left
          constructor
          · simp [pickMax, h, heq]
          · intro y hy
            rcases List.mem_cons.mp hy with rfl | hy
            · exact Nat.le_of_not_lt h
            · exact hbd y hy
        · right
          refine ⟨c :: l₁, d, l₂, by simp [hsplit], ?_, hlt, ?_, hl₂⟩
          · simp [pickMax, h, heq]
          · intro x hx
            rcases List.mem_cons.mp hx with rfl | hx
            · exact lt_of_le_of_lt (Nat.le_of_not_lt h) hlt
            · exact hl₁ x hx

theorem qualifies_ne_nil {ft c : List Char} (h : qualifies ft c = true) : c ≠ [] := by
  intro hc
  subst hc
  simp [qualifies, typeSearch] at h

/-- C1: For every filing blob and target form type, sub-document selection
(when it returns) yields either "not found" (with no qualifying region) or a
region whose `<TYPE>` line contains the target form type as a case-sensitive
substring; the returned region is of maximal length among the qualifying
regions, every qualifying region occurring before it is strictly shorter
(so among equal maximal lengths the first-occurring region is returned),
and every one after it is no longer. -/
theorem c1_subdoc_selection (full ft : List Char) (r : Option (List Char))
    (h : selectMainDoc full ft = .ok r) :
    (r = none ∧ candidates full ft = []) ∨
    (∃ c g l₁ l₂, r = some c ∧ typeSearch c = some g ∧ ft <:+: g ∧
      candidates full ft = l₁ ++ c :: l₂ ∧
      (∀ x ∈ l₁, x.length < c.length) ∧ (∀ y ∈ l₂, y.length ≤ c.length)) := by
  unfold selectMainDoc at h
  rcases hsel : selectAux ft full (docStartIdxs full) (docEndIdxs full) [] with e | m
  · rw [hsel] at h
    exact absurd h (by simp)
  · rw [hsel] at h
    have hm : m = pickMax [] (candidates full ft) :=
      selectAux_ok ft full (docStartIdxs full) (docEndIdxs full) [] m hsel
    have hr : r = if m.isEmpty then none else some m := by
      simpa using h.symm
    rcases pickMax_cases (candidates full ft) [] with ⟨heq, hbd⟩ | ⟨l₁, c, l₂, hsplit, heq, _, hl₁, hl₂⟩
    · left
      have hm0 : m = [] := by rw [hm, heq]
      refine ⟨by simp [hr, hm0], ?_⟩
      rcases hcs : candidates full ft with _ | ⟨c, cs⟩
      · rfl
      · exfalso
        have hcmem : c ∈ candidates full ft := by simp [hcs]
        have hq : qualifies ft c = true := (List.mem_filter.mp hcmem).2
        have : c.length ≤ 0 := by
          have := hbd c hcmem
          simpa using this
        exact qualifies_ne_nil hq (List.length_eq_zero.mp (Nat.le_zero.mp this))
    · right
      have hmc : m = c := by rw [hm, heq]
      have hcmem : c ∈ candidates full ft := by
        rw [hsplit]; simp
      have hq : qualifies ft c = true := (List.mem_filter.mp hcmem).2
      have hcne : c ≠ [] := qualifies_ne_nil hq
      rcases hg : typeSearch c with _ | g
      · exfalso
        simp [qualifies, hg] at hq
      · have hinf : ft <:+: g := by
          have := hq
          simp [qualifies, hg] at this
          exact this
        refine ⟨c, g, l₁, l₂, ?_, hg, hinf, hsplit, hl₁, hl₂⟩
        rw [hr, hmc]
        simp [hcne]

/-- Witness for C1 at a concrete blob with two qualifying regions of
lengths 9 and 10: the longer, second region is returned. -/
theorem c1_subdoc_selection_witness :
    (Option.some ("<TYPE>K\nBB".toList) = none ∧
      candidates ("<DOCUMENT><TYPE>K\nA</DOCUMENT><DOCUMENT><TYPE>K\nBB</DOCUMENT>".toList)
        ("K".toList) = []) ∨
    (∃ c g l₁ l₂, Option.some ("<TYPE>K\nBB".toList) = some c ∧
      typeSearch c = some g ∧ ("K".toList) <:+: g ∧
      candidates ("<DOCUMENT><TYPE>K\nA</DOCUMENT><DOCUMENT><TYPE>K\nBB</DOCUMENT>".toList)
        ("K".toList) = l₁ ++ c :: l₂ ∧
      (∀ x ∈ l₁, x.length < c.length) ∧ (∀ y ∈ l₂, y.length ≤ c.length)) :=
  c1_subdoc_selection
    ("<DOCUMENT><TYPE>K\nA</DOCUMENT><DOCUMENT><TYPE>K\nBB</DOCUMENT>".toList)
    ("K".toList) (some ("<TYPE>K\nBB".toList)) rfl

/-- C2, evaluated at the failing inputs.  The claim says a blob whose
document-start and document-end marker counts differ must be reported as
NotFound.  The code does not check the counts: with one start and two end
markers it positionally pairs the markers and returns a region (not
NotFound), and with two starts and one end it aborts with an out-of-bounds
list access (`IndexError`), modelled by `.error ()`. -/
theorem c2_mismatched_markers_divergence :
    (((docStartIdxs ("<DOCUMENT><TYPE>10-K\nAAA</DOCUMENT></DOCUMENT>".toList)).length ≠
        (docEndIdxs ("<DOCUMENT><TYPE>10-K\nAAA</DOCUMENT></DOCUMENT>".toList)).length) ∧
      selectMainDoc ("<DOCUMENT><TYPE>10-K\nAAA</DOCUMENT></DOCUMENT>".toList)
        ("10-K".toList) = .ok (some ("<TYPE>10-K\nAAA".toList))) ∧
    (((docStartIdxs ("<DOCUMENT>x<DOCUMENT><TYPE>10-K\nAAA</DOCUMENT>".toList)).length ≠
        (docEndIdxs ("<DOCUMENT>x<DOCUMENT><TYPE>10-K\nAAA</DOCUMENT>".toList)).length) ∧
      selectMainDoc ("<DOCUMENT>x<DOCUMENT><TYPE>10-K\nAAA</DOCUMENT>".toList)
        ("10-K".toList) = .error ()) :=
  ⟨⟨by decide, rfl⟩, ⟨by decide, rfl⟩⟩

/-! ## Parsed markup model

`BeautifulSoup`'s parse tree is modelled by `Node`: a text node or an
element with a tag name and a list of children. -/

inductive Node where
  | text : List Char → Node
  | elem : List Char → List Node → Node

mutual

def textsOf : Node → List (List Char)
  | .text s => [s]
  | .elem _ cs => textsOfL cs

def textsOfL : List Node → List (List Char)
  | [] => []
  | c :: cs => textsOf c ++ textsOfL cs

end

mutual

def getTextRaw : Node → List Char
  | .text s => s
  | .elem _ cs => getTextRawL cs

def getTextRawL : List Node → List Char
  | [] => []
  | c :: cs => getTextRaw c ++ getTextRawL cs

end

/-- Python `str.strip`: whitespace removed from both ends. -/
def stripL (s : List Char) : List Char :=
  ((s.dropWhile Char.isWhitespace).reverse.dropWhile Char.isWhitespace).reverse

/-- Model of `get_text(strip=True)`: each text segment stripped, all concatenated. -/
def getTextStrip (n : Node) : List Char := ((textsOf n).map stripL).flatten

/-! ## Markup normalizer (`_extract_tables_to_excel`, lines 134-140)

Step 1: every tag whose name matches `.*:.*` is replaced by its own raw
text.  Step 2: every `div`/`span`/`p`/`font` tag is unwrapped in place. -/

def wrapperNames : List (List Char) :=
  ["div".toList, "span".toList, "p".toList, "font".toList]

mutual

def replaceColon : Node → Node
  | .text s => .text s
  | .elem nm cs =>
    if nm.contains ':' then .text (getTextRawL cs) else .elem nm (replaceColonL cs)

def replaceColonL : List Node → List Node
  | [] => []
  | c :: cs => replaceColon c :: replaceColonL cs

end

mutual

def unwrapW : Node → List Node
  | .text s => [.text s]
  | .elem nm cs =>
    if wrapperNames.contains nm then unwrapWL cs else [.elem nm (unwrapWL cs)]

def unwrapWL : List Node → List Node
  | [] => []
  | c :: cs => unwrapW c ++ unwrapWL cs

end

/-- The markup normalizer on a fragment (a list of sibling nodes). -/
def normalizeFrag (ns : List Node) : List Node := unwrapWL (replaceColonL ns)

/-- The normalizer as applied to one table: `find_all` only searches the
descendants, so the table tag itself is kept. -/
def normalizeTable : Node → Node
  | .text s => .text s
  | .elem nm cs => .elem nm (normalizeFrag cs)

mutual

def colonFree : Node → Bool
  | .text _ => true
  | .elem nm cs => !nm.contains ':' && colonFreeL cs

def colonFreeL : List Node → Bool
  | [] => true
  | c :: cs => colonFree c && colonFreeL cs

end

mutual

def wrapperFree : Node → Bool
  | .text _ => true
  | .elem nm cs => !wrapperNames.contains nm && wrapperFreeL cs

def wrapperFreeL : List Node → Bool
  | [] => true
  | c :: cs => wrapperFree c && wrapperFreeL cs

end

theorem colonFreeL_append (a b : List Node) :
    colonFreeL (a ++ b) = (colonFreeL a && colonFreeL b) := by
  induction a with
  | nil => simp [colonFreeL]
  | cons c cs ih => simp [colonFreeL, ih, Bool.and_assoc]

theorem wrapperFreeL_append (a b : List Node) :
    wrapperFreeL (a ++ b) = (wrapperFreeL a && wrapperFreeL b) := by
  induction a with
  | nil => simp [wrapperFreeL]
  | cons c cs ih => simp [wrapperFreeL, ih, Bool.and_assoc]

mutual

theorem colonFree_replaceColon : ∀ n : Node, colonFree (replaceColon n) = true
  | .text _ => rfl
  | .elem nm cs => by
      by_cases h : ':' ∈ nm
      · simp [replaceColon, h, colonFree]
      · simp [replaceColon, h, colonFree, colonFreeL_replaceColonL cs]

theorem colonFreeL_replaceColonL : ∀ ns : List Node, colonFreeL (replaceColonL ns) = true
  | [] => rfl
  | c :: cs => by
      simp [replaceColonL, colonFreeL, colonFree_replaceColon c, colonFreeL_replaceColonL cs]

end

mutual

theorem colonFree_unwrapW : ∀ n : Node, colonFree n = true → colonFreeL (unwrapW n) = true
  | .text _, _ => rfl
  | .elem nm cs, h => by
      simp only [colonFree, Bool.and_eq_true] at h
      have h1 : ':' ∉ nm := by simpa using h.1
      by_cases hw : nm ∈ wrapperNames
      · simpa [unwrapW, hw] using colonFreeL_unwrapWL cs h.2
      · simp [unwrapW, hw, colonFreeL, colonFree, h1, colonFreeL_unwrapWL cs h.2]

theorem colonFreeL_unwrapWL : ∀ ns : List Node, colonFreeL ns = true → colonFreeL (unwrapWL ns) = true
  | [], _ => rfl
  | c :: cs, h => by
      simp only [colonFreeL, Bool.and_eq_true] at h
      simp [unwrapWL, colonFreeL_append, colonFree_unwrapW c h.1, colonFreeL_unwrapWL cs h.2]

end

mutual

theorem wrapperFreeL_unwrapW : ∀ n : Node, wrapperFreeL (unwrapW n) = true
  | .text _ => rfl
  | .elem nm cs => by
      by_cases hw : nm ∈ wrapperNames
      · simpa [unwrapW, hw] using wrapperFreeL_unwrapWL cs
      · simp [unwrapW, hw, wrapperFreeL, wrapperFree, wrapperFreeL_unwrapWL cs]

theorem wrapperFreeL_unwrapWL : ∀ ns : List Node, wrapperFreeL (unwrapWL ns) = true
  | [] => rfl
  | c :: cs => by
      simp [unwrapWL, wrapperFreeL_append, wrapperFreeL_unwrapW c, wrapperFreeL_unwrapWL cs]

end

mutual

theorem replaceColon_id : ∀ n : Node, colonFree n = true → replaceColon n = n
  | .text _, _ => rfl
  | .elem nm cs, h => by
      simp only [colonFree, Bool.not_eq_true', Bool.and_eq_true] at h
      have hnm : ':' ∉ nm := by
        rcases h with ⟨h1, _⟩
        simpa using h1
      simp [replaceColon, hnm, replaceColonL_id cs h.2]

theorem replaceColonL_id : ∀ ns : List Node, colonFreeL ns = true → replaceColonL ns = ns
  | [], _ => rfl
  | c :: cs, h => by
      simp only [colonFreeL, Bool.and_eq_true] at h
      simp [replaceColonL, replaceColon_id c h.1, replaceColonL_id cs h.2]

end

mutual

theorem unwrapW_id : ∀ n : Node, wrapperFree n = true → unwrapW n = [n]
  | .text _, _ => rfl
  | .elem nm cs, h => by
      simp only [wrapperFree, Bool.not_eq_true', Bool.and_eq_true] at h
      have hnm : nm ∉ wrapperNames := by
        rcases h with ⟨h1, _⟩
        simpa using h1
      simp [unwrapW, hnm, unwrapWL_id cs h.2]

theorem unwrapWL_id : ∀ ns : List Node, wrapperFreeL ns = true → unwrapWL ns = ns
  | [], _ => rfl
  | c :: cs, h => by
      simp only [wrapperFreeL, Bool.and_eq_true] at h
      simp [unwrapWL, unwrapW_id c h.1, unwrapWL_id cs h.2]

end

/-- C3: The markup normalizer (replace every colon-named tag by its text
content, then unwrap every `div`/`span`/`p`/`font` wrapper) is idempotent:
applying it a second time to its own output changes nothing, both on a
fragment of siblings and as applied to a table element's descendants. -/
theorem c3_normalizer_idempotent :
    (∀ ns : List Node, normalizeFrag (normalizeFrag ns) = normalizeFrag ns) ∧
    (∀ t : Node, normalizeTable (normalizeTable t) = normalizeTable t) := by
  have hfrag : ∀ ns : List Node, normalizeFrag (normalizeFrag ns) = normalizeFrag ns := by
    intro ns
    have hcf : colonFreeL (normalizeFrag ns) = true :=
      colonFreeL_unwrapWL _ (colonFreeL_replaceColonL ns)
    have hwf : wrapperFreeL (normalizeFrag ns) = true := wrapperFreeL_unwrapWL _
    conv_lhs => rw [normalizeFrag]
    rw [replaceColonL_id _ hcf, unwrapWL_id _ hwf]
  refine ⟨hfrag, ?_⟩
  intro t
  cases t with
  | text s => rfl
  | elem nm cs => simp [normalizeTable, hfrag cs]

/-! ## Table extraction pipeline (`_extract_tables_to_excel`)

A pandas DataFrame is modelled as a rectangular grid of cells, a cell
being `none` (NaN) or a string.  The tolerant HTML-table parser
(`pd.read_html`) is an external collaborator and is abstracted as a
function from the normalized table markup to a list of grids or a raised
exception (`.error`). -/

abbrev Cell := Option (List Char)

abbrev Grid := List (List Cell)

def isNA : Cell → Bool
  | none => true
  | some _ => false

def ncols : Grid → Nat
  | [] => 0
  | r :: _ => r.length

/-- Model of `df.dropna(how='all', axis=0)`: drop the rows whose cells are all NaN. -/
def dropAllNaRows (g : Grid) : Grid := g.filter (fun r => !r.all isNA)

/-- Model of `df.dropna(how='all', axis=1)`: drop the columns whose cells are all NaN. -/
def dropAllNaCols (g : Grid) : Grid :=
  let keep := (List.range (ncols g)).filter (fun j => g.any (fun r => !isNA (r.getD j none)))
  g.map (fun r => keep.map (fun j => r.getD j none))

def trimGrid (g : Grid) : Grid := dropAllNaCols (dropAllNaRows g)

/-- Model of `df.empty`. -/
def dfEmpty (g : Grid) : Bool := decide (g.length = 0) || decide (ncols g = 0)

/-- Model of `not df.empty and df.shape[0] > 1 and df.shape[1] > 0`. -/
def keepGrid (g : Grid) : Bool :=
  !dfEmpty g && decide (1 < g.length) && decide (0 < ncols g)

mutual

def findTables : Node → List Node
  | .text _ => []
  | .elem nm cs => (if nm = "table".toList then [Node.elem nm cs] else []) ++ findTablesL cs

def findTablesL : List Node → List Node
  | [] => []
  | c :: cs => findTables c ++ findTablesL cs

end

abbrev TableParser := Node → Except Unit (List Grid)

/-- One iteration of the table loop: normalize a duplicate of the table,
hand it to the parser, take the first returned grid, trim it, and keep it
only if it passes the validity filter.  Any parser exception yields `none`
(the `except ... continue` arms). -/
def processTable (parse : TableParser) (t : Node) : Option Grid :=
  match parse (normalizeTable t) with
  | .error _ => none
  | .ok [] => none
  | .ok (df :: _) =>
    let d := trimGrid df
    if keepGrid d then some d else none

def validDfsLoop (parse : TableParser) : List Node → List Grid
  | [] => []
  | t :: ts =>
    match processTable parse t with
    | some d => d :: validDfsLoop parse ts
    | none => validDfsLoop parse ts

def validDfs (parse : TableParser) (doc : Node) : List Grid :=
  validDfsLoop parse (findTables doc)

def sheetName (i : Nat) : List Char := "Table_".toList ++ Nat.toDigits 10 i

/-- The sheets written by the `ExcelWriter` loop: `Table_{i+1}` over the
surviving grids. -/
def sheets (parse : TableParser) (doc : Node) : List (List Char × Grid) :=
  (validDfs parse doc).enum.map (fun x => (sheetName (x.1 + 1), x.2))

/-- The table loop threading the caller's document tree: each iteration
works on a duplicate (`copy.copy(table)`) of the table element, so the
tree component is passed through untouched. -/
def tablesFold (parse : TableParser) : List Node → Node → List Grid × Node
  | [], d => ([], d)
  | t :: ts, d =>
    let copied := t
    let res := processTable parse copied
    let rest := tablesFold parse ts d
    (match res with
     | some gr => gr :: rest.1
     | none => rest.1, rest.2)

def extractTablesState (parse : TableParser) (doc : Node) : List Grid × Node :=
  tablesFold parse (findTables doc) doc

theorem tablesFold_eq (parse : TableParser) :
    ∀ (ts : List Node) (d : Node), tablesFold parse ts d = (validDfsLoop parse ts, d)
  | [], d => rfl
  | t :: ts, d => by
      rcases hp : processTable parse t with _ | gr <;>
        simp [tablesFold, validDfsLoop, hp, tablesFold_eq parse ts d]

/-- C4: Table normalization operates on a duplicate: after the whole
table loop runs, the caller's parsed tree (with every table and sibling
table in it) is unchanged, and every emitted grid is computed from the
table element as it stands in the original tree. -/
theorem c4_original_tree_unchanged (parse : TableParser) (doc : Node) :
    (extractTablesState parse doc).2 = doc ∧
    (extractTablesState parse doc).1 = validDfs parse doc := by
  unfold extractTablesState validDfs
  rw [tablesFold_eq]
  exact ⟨rfl, rfl⟩

theorem processTable_some {parse : TableParser} {t : Node} {h : Grid}
    (hs : processTable parse t = some h) :
    keepGrid h = true ∧ ∃ df rest, parse (normalizeTable t) = .ok (df :: rest) ∧ h = trimGrid df := by
  rcases hp : parse (normalizeTable t) with e | ls
  · simp [processTable, hp] at hs
  · rcases ls with _ | ⟨df, rest⟩
    · simp [processTable, hp] at hs
    · by_cases hk : keepGrid (trimGrid df)
      · have heq : h = trimGrid df := by
          simp [processTable, hp, hk] at hs
          exact hs.symm
        exact ⟨by rw [heq]; exact hk, df, rest, rfl, heq⟩
      · simp [processTable, hp, hk] at hs

theorem validDfsLoop_mem {parse : TableParser} :
    ∀ {ts : List Node} {h : Grid}, h ∈ validDfsLoop parse ts →
      ∃ t ∈ ts, processTable parse t = some h := by
  intro ts
  induction ts with
  | nil => intro h hm; simp [validDfsLoop] at hm
  | cons t ts ih =>
      intro h hm
      rcases hp : processTable parse t with _ | d
      · rw [validDfsLoop, hp] at hm
        rcases ih hm with ⟨u, hu, hpu⟩
        exact ⟨u, List.mem_cons_of_mem _ hu, hpu⟩
      · rw [validDfsLoop, hp] at hm
        rcases List.mem_cons.mp hm with rfl | hm'
        · exact ⟨t, List.mem_cons_self _ _, hp⟩
        · rcases ih hm' with ⟨u, hu, hpu⟩
          exact ⟨u, List.mem_cons_of_mem _ hu, hpu⟩

/-- C7: A parsed table is kept, after dropping all-empty rows and
all-empty columns, if and only if it has more than one row and at least
one column; consequently the emitted table set never contains a grid with
fewer than 2 rows or fewer than 1 column. -/
theorem c7_trim_filter_bounds :
    (∀ g : Grid, keepGrid g = true ↔ (1 < g.length ∧ 0 < ncols g)) ∧
    (∀ (parse : TableParser) (doc : Node) (h : Grid),
      h ∈ validDfs parse doc → 2 ≤ h.length ∧ 1 ≤ ncols h) := by
  have hiff : ∀ g : Grid, keepGrid g = true ↔ (1 < g.length ∧ 0 < ncols g) := by
    intro g
    simp only [keepGrid, dfEmpty, Bool.and_eq_true, Bool.not_eq_true', Bool.or_eq_false_iff,
      decide_eq_true_eq, decide_eq_false_iff_not]
    omega
  refine ⟨hiff, ?_⟩
  intro parse doc h hm
  rcases validDfsLoop_mem hm with ⟨t, _, hp⟩
  rcases processTable_some hp with ⟨hk, _⟩
  have := (hiff h).mp hk
  omega

/-- A concrete 2-row, 1-column grid used by the witnesses. -/
def gridW : Grid := [[some ("a".toList)], [some ("b".toList)]]

/-- A malformed table: the concrete parser below raises on it. -/
def tableMal : Node := Node.elem ("table".toList) []

def tableGood : Node := Node.elem ("table".toList) [Node.text ("x".toList)]

def docW : Node := Node.elem ("body".toList) [tableMal, tableGood]

/-- A concrete tolerant-parser instance: raises on childless tables,
parses anything else into `gridW`. -/
def parseW : TableParser := fun n =>
  match n with
  | .elem _ [] => .error ()
  | _ => .ok [gridW]

/-- Witness for C7: the surviving grid of a concrete run has at least
2 rows and 1 column. -/
theorem c7_trim_filter_bounds_witness : 2 ≤ gridW.length ∧ 1 ≤ ncols gridW :=
  c7_trim_filter_bounds.2 parseW docW gridW (by
    rw [show validDfs parseW docW = [gridW] from rfl]
    exact List.mem_singleton.mpr rfl)

/-- C8: Each table is parsed independently: the surviving grids are the
per-table results in document order (`filterMap`, so one table's parse
failure removes only that table and never aborts the batch), the emitted
sheets are exactly the survivors, and their names are `Table_1`,
`Table_2`, ... numbered densely over survivors, not over original table
positions; a table whose markup the parser cannot convert produces no
sheet. -/
theorem c8_tables_independent_dense (parse : TableParser) (doc : Node) :
    validDfs parse doc = (findTables doc).filterMap (processTable parse) ∧
    sheets parse doc = (validDfs parse doc).enum.map (fun x => (sheetName (x.1 + 1), x.2)) ∧
    (sheets parse doc).map Prod.fst =
      (List.range (validDfs parse doc).length).map (fun i => sheetName (i + 1)) ∧
    (∀ t ∈ findTables doc, parse (normalizeTable t) = .error () → processTable parse t = none) := by
  refine ⟨?_, rfl, ?_, ?_⟩
  · have hloop : ∀ ts : List Node, validDfsLoop parse ts = ts.filterMap (processTable parse) := by
      intro ts
      induction ts with
      | nil => rfl
      | cons t ts ih =>
          rcases hp : processTable parse t with _ | d <;>
            simp [validDfsLoop, List.filterMap_cons, hp, ih]
    exact hloop _
  · show (sheets parse doc).map Prod.fst = _
    unfold sheets
    rw [List.map_map]
    calc (validDfs parse doc).enum.map (Prod.fst ∘ fun x : Nat × Grid => (sheetName (x.1 + 1), x.2))
        = ((validDfs parse doc).enum.map Prod.fst).map (fun i => sheetName (i + 1)) := by
          rw [List.map_map]
          rfl
      _ = (List.range (validDfs parse doc).length).map (fun i => sheetName (i + 1)) := by
          rw [List.enum_map_fst]
  · intro t _ he
    simp [processTable, he]

/-- Witness for C8: a document with one malformed and one valid table
yields exactly one sheet, named `Table_1`, holding the valid grid; the
malformed table produces no sheet and the loop is not aborted. -/
theorem c8_tables_independent_dense_witness :
    processTable parseW tableMal = none ∧
    validDfs parseW docW = [gridW] ∧
    sheets parseW docW = [("Table_1".toList, gridW)] := by
  have h := c8_tables_independent_dense parseW docW
  refine ⟨?_, rfl, rfl⟩
  exact h.2.2.2 tableMal
    (by rw [show findTables docW = [tableMal, tableGood] from rfl]
        exact List.mem_cons_self _ _) rfl

/-! ## MD&A narrative extraction (`_extract_mda_text`)

The fuzzy start pattern `management.{1,5}s discussion and analysis`
(case-insensitive), the stop pattern (two literal alternatives,
case-insensitive), the anchor search over text nodes, and the
`find_all_next` forward walk.  Tree positions are paths (child indices);
`prePaths` lists them in document (pre-)order. -/

def lowerL (s : List Char) : List Char := s.map Char.toLower

def mdaHead : List Char := "management".toList

def mdaTail : List Char := "s discussion and analysis".toList

/-- Does `management.{1,5}s discussion and analysis` match starting at the
head of (already lowercased) `s`?  The dot does not match a newline. -/
def mdaAt (s : List Char) : Bool :=
  mdaHead.isPrefixOf s &&
    (List.range 5).any (fun k =>
      (decide (((s.drop mdaHead.length).take (k+1)).length = k+1) &&
        ((s.drop mdaHead.length).take (k+1)).all (fun d => d != '\n') &&
        mdaTail.isPrefixOf ((s.drop mdaHead.length).drop (k+1))))

def searchAt (f : List Char → Bool) : List Char → Bool
  | [] => f []
  | c :: rest => f (c :: rest) || searchAt f rest

/-- Model of `re.search` of the MD&A pattern with `re.IGNORECASE`. -/
def mdaMatch (s : List Char) : Bool := searchAt mdaAt (lowerL s)

def stopPat1 : List Char :=
  "quantitative and qualitative disclosures about market risk".toList

def stopPat2 : List Char := "financial statements and supplementary data".toList

/-- Model of `re.search` of the stop pattern: one of two literal alternatives,
case-insensitively, anywhere in the text. -/
def stopMatch (s : List Char) : Bool :=
  decide (stopPat1 <:+: lowerL s) || decide (stopPat2 <:+: lowerL s)

mutual

def prePaths : Node → List (List Nat)
  | .text _ => [[]]
  | .elem _ cs => [] :: prePathsL 0 cs

def prePathsL : Nat → List Node → List (List Nat)
  | _, [] => []
  | i, c :: cs => (prePaths c).map (fun p => i :: p) ++ prePathsL (i+1) cs

end

def nodeAt? : List Nat → Node → Option Node
  | [], n => some n
  | _ :: _, .text _ => none
  | i :: p, .elem _ cs =>
    match cs[i]? with
    | some c => nodeAt? p c
    | none => none

mutual

def textEntries : Node → List (List Nat × List Char)
  | .text s => [([], s)]
  | .elem _ cs => textEntriesL 0 cs

def textEntriesL : Nat → List Node → List (List Nat × List Char)
  | _, [] => []
  | i, c :: cs => (textEntries c).map (fun e => (i :: e.1, e.2)) ++ textEntriesL (i+1) cs

end

def nameAt? (doc : Node) (p : List Nat) : Option (List Char) :=
  match nodeAt? p doc with
  | some (.elem nm _) => some nm
  | _ => none

def properPrefixes (p : List Nat) : List (List Nat) :=
  (List.range p.length).map (fun k => p.take k)

/-- Truthiness of `text_node.find_parent('a')`: some ancestor is a hyperlink. -/
def insideLink (doc : Node) (p : List Nat) : Bool :=
  (properPrefixes p).any (fun q => nameAt? doc q == some ("a".toList))

/-- Model of `soup.find_all(text=mda_pattern)`: the text nodes whose string matches
the MD&A pattern, in document order. -/
def potentialHeaders (doc : Node) : List (List Nat × List Char) :=
  (textEntries doc).filter (fun e => mdaMatch e.2)

/-- The loop over potential headers: the first match not inside a
hyperlink, its parent (`find_parent()`, i.e. the path minus its last
step) becoming the start anchor. -/
def startAnchor? (doc : Node) : Option (List Nat) :=
  ((potentialHeaders doc).find? (fun e => !insideLink doc e.1)).map (fun e => e.1.dropLast)

def headingNames : List (List Char) :=
  ["h1".toList, "h2".toList, "h3".toList, "h4".toList]

def walkNames : List (List Char) :=
  ["p".toList, "div".toList, "h1".toList, "h2".toList, "h3".toList, "h4".toList]

/-- Everything strictly after `a` in document order. -/
def afterPaths (doc : Node) (a : List Nat) : List (List Nat) :=
  ((prePaths doc).dropWhile (fun p => p != a)).drop 1

/-- Model of `start_tag.find_all_next(['p', 'div', 'h1', 'h2', 'h3', 'h4'])`. -/
def walkPaths (doc : Node) (a : List Nat) : List (List Nat) :=
  (afterPaths doc a).filter (fun p =>
    match nameAt? doc p with
    | some nm => walkNames.contains nm
    | none => false)

def textStripAt (doc : Node) (p : List Nat) : List Char :=
  match nodeAt? p doc with
  | some n => getTextStrip n
  | none => []

/-- Is the element at `p` a heading h1-h4 whose text matches the stop
pattern (the break condition of the walk)? -/
def stopHitAt (doc : Node) (p : List Nat) : Bool :=
  match nodeAt? p doc with
  | some (.elem nm cs) => headingNames.contains nm && stopMatch (getTextStrip (.elem nm cs))
  | _ => false

def sep2 : List Char := "\n\n".toList

/-- The accumulation loop: break at the first stop heading, otherwise
append `elem.get_text(strip=True) + "\n\n"`. -/
def mdaWalk (doc : Node) : List (List Nat) → List Char
  | [] => []
  | p :: ps => if stopHitAt doc p then [] else (textStripAt doc p ++ sep2) ++ mdaWalk doc ps

/-- The accumulated `mda_text` (`none` when no anchor was found). -/
def mdaBody? (doc : Node) : Option (List Char) :=
  (startAnchor? doc).map (fun a => mdaWalk doc (walkPaths doc a))

/-- Model of `_extract_mda_text` with the artifact write modelled by `wf` (whether
writing a given filename succeeds).  The write is not guarded by any
`try`: a failing write raises, modelled by `.error ()`. -/
def extractMdaEff (wf : String → Bool) (doc : Node) (fname : String) :
    Except Unit (Option (List Char)) :=
  match mdaBody? doc with
  | none => .ok none
  | some txt =>
    if txt.isEmpty then .ok none
    else if wf fname then .ok (some txt) else .error ()

theorem find?_decomp {α : Type} (f : α → Bool) :
    ∀ (l : List α) (x : α), l.find? f = some x →
      ∃ l₁ l₂, l = l₁ ++ x :: l₂ ∧ f x = true ∧ ∀ e ∈ l₁, f e = false
  | [], x, h => by simp [List.find?] at h
  | a :: l, x, h => by
      by_cases ha : f a = true
      · rw [List.find?_cons_of_pos _ ha] at h
        obtain rfl : a = x := by injection h
        exact ⟨[], l, by simp, ha, by simp⟩
      · rw [List.find?_cons_of_neg _ ha] at h
        rcases find?_decomp f l x h with ⟨l₁, l₂, hsplit, hx, hl₁⟩
        refine ⟨a :: l₁, l₂, by simp [hsplit], hx, ?_⟩
        intro e he
        rcases List.mem_cons.mp he with rfl | he'
        · simpa using ha
        · exact hl₁ e he'

/-- C5: The narrative start anchor is the parent element of the first
text node matching the fuzzy MD&A pattern that is not nested inside a
hyperlink element (every earlier matching text node is hyperlink-wrapped
and is skipped); when no eligible text node exists, no anchor is chosen
and the extraction yields nothing, reported as a non-fatal condition
(a normal return, not an exception). -/
theorem c5_anchor_selection (doc : Node) :
    (∀ a, startAnchor? doc = some a →
      ∃ p s l₁ l₂, potentialHeaders doc = l₁ ++ (p, s) :: l₂ ∧
        insideLink doc p = false ∧ (∀ e ∈ l₁, insideLink doc e.1 = true) ∧
        a = p.dropLast) ∧
    ((∀ e ∈ potentialHeaders doc, insideLink doc e.1 = true) →
      startAnchor? doc = none ∧ ∀ wf fname, extractMdaEff wf doc fname = .ok none) := by
  constructor
  · intro a ha
    rcases Option.map_eq_some'.mp ha with ⟨e, hfind, hdrop⟩
    rcases find?_decomp _ _ _ hfind with ⟨l₁, l₂, hsplit, hx, hl₁⟩
    refine ⟨e.1, e.2, l₁, l₂, by simpa using hsplit, ?_, ?_, hdrop.symm⟩
    · simpa using hx
    · intro x hxm
      have := hl₁ x hxm
      simpa using this
  · intro hall
    have hnone : (potentialHeaders doc).find? (fun e => !insideLink doc e.1) = none := by
      refine List.find?_eq_none.mpr ?_
      intro x hx
      simp [hall x hx]
    have hanch : startAnchor? doc = none := by
      simp [startAnchor?, hnone]
    refine ⟨hanch, ?_⟩
    intro wf fname
    simp [extractMdaEff, mdaBody?, hanch]

/-- A concrete document: a hyperlink-wrapped MD&A phrase (a table of
contents entry), the real MD&A heading, one body paragraph, a stop
heading, then trailing content. -/
def docMda : Node :=
  Node.elem ("body".toList)
    [Node.elem ("a".toList) [Node.text ("Management's Discussion and Analysis".toList)],
     Node.elem ("p".toList) [Node.text ("Management's Discussion and Analysis".toList)],
     Node.elem ("p".toList) [Node.text ("Body one.".toList)],
     Node.elem ("h2".toList)
       [Node.text ("Item 7A. Quantitative and Qualitative Disclosures About Market Risk".toList)],
     Node.elem ("p".toList) [Node.text ("secret".toList)]]

/-- Witness for C5: on `docMda` the anchor is the parent of the second
(non-link) matching text node, the first (link-wrapped) one being skipped. -/
theorem c5_anchor_selection_witness :
    ∃ p s l₁ l₂, potentialHeaders docMda = l₁ ++ (p, s) :: l₂ ∧
      insideLink docMda p = false ∧ (∀ e ∈ l₁, insideLink docMda e.1 = true) ∧
      ([1] : List Nat) = p.dropLast :=
  (c5_anchor_selection docMda).1 [1] (by decide)

theorem mdaWalk_takeWhile (doc : Node) :
    ∀ l : List (List Nat),
      mdaWalk doc l =
        ((l.takeWhile (fun p => !stopHitAt doc p)).map (fun p => textStripAt doc p ++ sep2)).flatten
  | [] => rfl
  | p :: ps => by
      by_cases h : stopHitAt doc p
      · simp [mdaWalk, h, List.takeWhile_cons]
      · simp [mdaWalk, h, List.takeWhile_cons, mdaWalk_takeWhile doc ps]

/-- A document whose stop heading is nested inside a `div` that the walk
visits first. -/
def docStopNested : Node :=
  Node.elem ("body".toList)
    [Node.elem ("p".toList) [Node.text ("Management's Discussion and Analysis".toList)],
     Node.elem ("div".toList)
       [Node.elem ("h1".toList)
         [Node.text ("Financial Statements and Supplementary Data".toList)]]]

/-- C6 counterexample: the claim says no text from the first stop
heading appears in the accumulated output.  On `docStopNested` the walk
visits the `div` containing the stop heading before the heading itself;
the appended `div` text is the heading's text, so the entire (non-empty)
text of the first stop heading appears in the output. -/
theorem c6_counterexample :
    startAnchor? docStopNested = some [0] ∧
    (walkPaths docStopNested [0]).find? (stopHitAt docStopNested) = some [1, 0] ∧
    stopHitAt docStopNested [1, 0] = true ∧
    mdaBody? docStopNested = some (textStripAt docStopNested [1, 0] ++ sep2) ∧
    textStripAt docStopNested [1, 0] ≠ [] :=
  ⟨by decide, by decide, by decide, by decide, by decide⟩

/-- C6 amended: For every document with a found start anchor, the walk
halts strictly before the first heading-level element matching the stop
pattern: the accumulated output is exactly the concatenation, in order, of
the stripped texts (each followed by a blank line) of the elements visited
strictly before that heading — no element from the heading onward is
itself visited or appended, though its text can still occur inside the
block of an earlier-visited ancestor container; when no stop heading
exists among the walked elements, the walk runs to document end. -/
theorem c6_walk_stops_before_heading (doc : Node) (a : List Nat)
    (h : startAnchor? doc = some a) :
    mdaBody? doc =
      some (((walkPaths doc a).takeWhile (fun p => !stopHitAt doc p)).map
        (fun p => textStripAt doc p ++ sep2)).flatten ∧
    ((∀ p ∈ walkPaths doc a, stopHitAt doc p = false) →
      mdaBody? doc =
        some ((walkPaths doc a).map (fun p => textStripAt doc p ++ sep2)).flatten) := by
  constructor
  · simp [mdaBody?, h, mdaWalk_takeWhile]
  · intro hall
    have htw : (walkPaths doc a).takeWhile (fun p => !stopHitAt doc p) = walkPaths doc a :=
      List.takeWhile_eq_self_iff.mpr (by intro x hx; simp [hall x hx])
    simp [mdaBody?, h, mdaWalk_takeWhile, htw]

/-- Witness for the amended C6 on `docMda`: the walk output is exactly the
pre-stop prefix. -/
theorem c6_walk_stops_before_heading_witness :
    mdaBody? docMda =
      some (((walkPaths docMda [1]).takeWhile (fun p => !stopHitAt docMda p)).map
        (fun p => textStripAt docMda p ++ sep2)).flatten :=
  (c6_walk_stops_before_heading docMda [1] (by decide)).1

theorem mem_of_getElem?_eq {α : Type} {l : List α} {i : Nat} {a : α}
    (h : l[i]? = some a) : a ∈ l := by
  rcases List.getElem?_eq_some.mp h with ⟨hlt, rfl⟩
  exact List.getElem_mem hlt

theorem nodeAt?_append : ∀ (p q : List Nat) (n : Node),
    nodeAt? (p ++ q) n = (nodeAt? p n).bind (nodeAt? q)
  | [], q, n => by simp [nodeAt?]
  | i :: p, q, .text s => by simp [nodeAt?]
  | i :: p, q, .elem nm cs => by
      rcases hc : cs[i]? with _ | c
      · simp [nodeAt?, hc]
      · simp [nodeAt?, hc, nodeAt?_append p q c]

theorem textsOf_infix_of_mem {c : Node} : ∀ {cs : List Node},
    c ∈ cs → textsOf c <:+: textsOfL cs := by
  intro cs hm
  induction cs with
  | nil => simp at hm
  | cons d ds ih =>
      rcases List.mem_cons.mp hm with rfl | hm'
      · exact ⟨[], textsOfL ds, by simp [textsOfL]⟩
      · rcases ih hm' with ⟨s, t, hst⟩
        refine ⟨textsOf d ++ s, t, ?_⟩
        rw [textsOfL, ← hst]
        simp

theorem textsOf_nodeAt : ∀ (p : List Nat) (n m : Node),
    nodeAt? p n = some m → textsOf m <:+: textsOf n
  | [], n, m, h => by
      obtain rfl : n = m := by simpa [nodeAt?] using h
      exact List.infix_refl _
  | _ :: _, .text s, m, h => by simp [nodeAt?] at h
  | i :: p, .elem nm cs, m, h => by
      rcases hc : cs[i]? with _ | c
      · simp [nodeAt?, hc] at h
      · have h' : nodeAt? p c = some m := by simpa [nodeAt?, hc] using h
        have h1 := textsOf_nodeAt p c m h'
        have h2 : textsOf c <:+: textsOf (.elem nm cs) := by
          rw [textsOf]
          exact textsOf_infix_of_mem (mem_of_getElem?_eq hc)
        exact h1.trans h2

theorem flatten_infix_mono {l₁ l₂ : List (List Char)} (h : l₁ <:+: l₂) :
    l₁.flatten <:+: l₂.flatten := by
  rcases h with ⟨s, t, rfl⟩
  exact ⟨s.flatten, t.flatten, by simp⟩

theorem getTextStrip_infix_mono {p : List Nat} {n m : Node} (h : nodeAt? p n = some m) :
    getTextStrip m <:+: getTextStrip n :=
  flatten_infix_mono ((textsOf_nodeAt p n m h).map stripL)

theorem nodeAt_of_walk_mem {doc : Node} {a p : List Nat} (h : p ∈ walkPaths doc a) :
    ∃ nm cs, nodeAt? p doc = some (.elem nm cs) ∧ nm ∈ walkNames := by
  have hf := (List.mem_filter.mp h).2
  rcases hn : nameAt? doc p with _ | nm
  · rw [hn] at hf
    simp at hf
  · rcases honode : nodeAt? p doc with _ | n
    · simp [nameAt?, honode] at hn
    · cases n with
      | text s => simp [nameAt?, honode] at hn
      | elem nm' cs =>
          obtain rfl : nm' = nm := by simpa [nameAt?, honode] using hn
          rw [hn] at hf
          exact ⟨nm', cs, rfl, by simpa using hf⟩

/-- The prefix of the walk actually visited (everything strictly before
the first stop heading). -/
def visitedPaths (doc : Node) (a : List Nat) : List (List Nat) :=
  (walkPaths doc a).takeWhile (fun r => !stopHitAt doc r)

/-- The text blocks appended by the walk, in order. -/
def visitedBlocks (doc : Node) (a : List Nat) : List (List Char) :=
  (visitedPaths doc a).map (textStripAt doc)

/-- C10: When an element visited by the narrative walk has another
visited element as a descendant, the descendant's visible text appears at
least twice in the accumulated output: it is an appended block of its own
and also a contiguous substring of the ancestor's appended block, the
walk visiting containers and their nested children independently. -/
theorem c10_nested_duplication (doc : Node) (a p q : List Nat)
    (ha : startAnchor? doc = some a)
    (hp : p ∈ visitedPaths doc a) (hq : q ∈ visitedPaths doc a)
    (hpref : p <+: q) (hne : p ≠ q) :
    textStripAt doc q <:+: textStripAt doc p ∧
    textStripAt doc p ∈ visitedBlocks doc a ∧
    textStripAt doc q ∈ visitedBlocks doc a ∧
    mdaBody? doc = some ((visitedBlocks doc a).map (fun b => b ++ sep2)).flatten := by
  have hpw : p ∈ walkPaths doc a := (List.takeWhile_sublist _).subset hp
  have hqw : q ∈ walkPaths doc a := (List.takeWhile_sublist _).subset hq
  obtain ⟨nmp, csp, hnodep, _⟩ := nodeAt_of_walk_mem hpw
  obtain ⟨nmq, csq, hnodeq, _⟩ := nodeAt_of_walk_mem hqw
  rcases hpref with ⟨r, rfl⟩
  have hinf : textStripAt doc (p ++ r) <:+: textStripAt doc p := by
    have hbind : nodeAt? r (.elem nmp csp) = some (.elem nmq csq) := by
      have := nodeAt?_append p r doc
      rw [hnodeq, hnodep] at this
      simpa using this.symm
    have := getTextStrip_infix_mono hbind
    simpa [textStripAt, hnodep, hnodeq] using this
  refine ⟨hinf, ?_, ?_, ?_⟩
  · exact List.mem_map_of_mem (textStripAt doc) hp
  · exact List.mem_map_of_mem (textStripAt doc) hq
  · have hmaps : (visitedBlocks doc a).map (fun b => b ++ sep2) =
        (visitedPaths doc a).map (fun x => textStripAt doc x ++ sep2) := by
      rw [visitedBlocks, List.map_map]
      rfl
    rw [hmaps]
    simp [mdaBody?, ha, mdaWalk_takeWhile, visitedPaths]

/-- A document whose walk visits a `div` and, independently, the `p`
nested inside it. -/
def docNest : Node :=
  Node.elem ("body".toList)
    [Node.elem ("p".toList) [Node.text ("Management's Discussion and Analysis".toList)],
     Node.elem ("div".toList)
       [Node.elem ("p".toList) [Node.text ("inner".toList)],
        Node.text ("tail".toList)]]

/-- Witness for C10 on `docNest`: the inner paragraph's text is a block of
its own and a substring of the containing `div`'s block. -/
theorem c10_nested_duplication_witness :
    textStripAt docNest [1, 0] <:+: textStripAt docNest [1] ∧
    textStripAt docNest [1] ∈ visitedBlocks docNest [0] ∧
    textStripAt docNest [1, 0] ∈ visitedBlocks docNest [0] ∧
    mdaBody? docNest = some ((visitedBlocks docNest [0]).map (fun b => b ++ sep2)).flatten :=
  c10_nested_duplication docNest [0] [1] [1, 0] (by decide) (by decide) (by decide)
    (by decide) (by decide)

/-! ## Per-filing orchestration and write failures

`_extract_mda_text` writes its artifact with a bare `open(...)`/`write`
(no `try`), so a failing write raises out of the function;
`_extract_tables_to_excel` wraps its `ExcelWriter` in `try`/`except`, so
a failing workbook write is reported and swallowed.
`_download_and_parse_report` calls the two extractors in sequence and
`get_filings` loops over the reports with no exception handling, so an
exception aborts the remaining filings.  `wf fname` tells whether writing
the file `fname` succeeds. -/

def extractTablesEff (wf : String → Bool) (parse : TableParser) (doc : Node)
    (fname : String) : Option (List (List Char × Grid)) :=
  if (findTables doc).isEmpty then none
  else if (validDfs parse doc).isEmpty then none
  else if wf fname then some (sheets parse doc) else none

structure Filing where
  doc : Node
  mdaF : String
  tabF : String

/-- Model of `_download_and_parse_report` after the main document is parsed: MD&A
extraction first (its write can raise), then table extraction (its write
cannot). -/
def runFiling (wf : String → Bool) (parse : TableParser) (f : Filing) :
    Except Unit (Option (List Char) × Option (List (List Char × Grid))) :=
  match extractMdaEff wf f.doc f.mdaF with
  | .error e => .error e
  | .ok m => .ok (m, extractTablesEff wf parse f.doc f.tabF)

/-- The `get_filings` loop: an uncaught exception aborts the batch (the
flag records the abort; no further filing is processed). -/
def runBatch (wf : String → Bool) (parse : TableParser) :
    List Filing → List (Option (List Char) × Option (List (List Char × Grid))) × Bool
  | [] => ([], false)
  | f :: fs =>
    match runFiling wf parse f with
    | .error _ => ([], true)
    | .ok out =>
      let r := runBatch wf parse fs
      (out :: r.1, r.2)

/-- A filing document with a valid MD&A section and one parsable table. -/
def docFiling : Node :=
  Node.elem ("body".toList)
    [Node.elem ("p".toList) [Node.text ("Management's Discussion and Analysis".toList)],
     Node.elem ("p".toList) [Node.text ("Body one.".toList)],
     Node.elem ("table".toList) [Node.text ("x".toList)]]

/-- A write environment in which only the first filing's narrative file
fails to persist. -/
def wfFailMda : String → Bool := fun s => s != "m1"

/-- C9 counterexample: the claim says a failed artifact write never
aborts the other artifact or subsequent filings.  With a write failure on
the first filing's narrative text file, the batch aborts: the same
filing's workbook (which would have had content) is not produced and the
second filing is never processed, although it would have succeeded. -/
theorem c9_counterexample :
    (runBatch wfFailMda parseW
      [⟨docFiling, "m1", "t1"⟩, ⟨docFiling, "m2", "t2"⟩]).1.length = 0 ∧
    (runBatch wfFailMda parseW
      [⟨docFiling, "m1", "t1"⟩, ⟨docFiling, "m2", "t2"⟩]).2 = true ∧
    (extractTablesEff wfFailMda parseW docFiling ("t1")).isSome = true ∧
    (runFiling wfFailMda parseW ⟨docFiling, "m2", "t2"⟩).isOk = true :=
  ⟨rfl, rfl, rfl, rfl⟩

/-- C9 amended: A failure to persist the table workbook is reported
and contained: table extraction always returns normally, so a filing
whose narrative write succeeds is processed to completion and never aborts
the batch.  A failure to persist the narrative text file, however,
raises out of the filing: the filing's table artifact is not produced and
all subsequent filings are skipped. -/
theorem c9_write_failure_containment (wf : String → Bool) (parse : TableParser) :
    (∀ fs : List Filing, (∀ f ∈ fs, extractMdaEff wf f.doc f.mdaF ≠ .error ()) →
      (runBatch wf parse fs).2 = false ∧ (runBatch wf parse fs).1.length = fs.length) ∧
    (∀ f : Filing, extractMdaEff wf f.doc f.mdaF ≠ .error () →
      (runFiling wf parse f).isOk = true) ∧
    (∀ f : Filing, extractMdaEff wf f.doc f.mdaF = .error () →
      runFiling wf parse f = .error ()) := by
  have hok : ∀ f : Filing, extractMdaEff wf f.doc f.mdaF ≠ .error () →
      ∃ out, runFiling wf parse f = .ok out := by
    intro f hne
    rcases hm : extractMdaEff wf f.doc f.mdaF with e | m
    · cases e
      exact absurd hm hne
    · exact ⟨_, by rw [runFiling, hm]⟩
  refine ⟨?_, ?_, ?_⟩
  · intro fs
    induction fs with
    | nil => intro _; exact ⟨rfl, rfl⟩
    | cons f fs ih =>
        intro hall
        rcases hok f (hall f (List.mem_cons_self _ _)) with ⟨out, hrun⟩
        have hrest := ih (fun g hg => hall g (List.mem_cons_of_mem _ hg))
        rw [runBatch, hrun]
        simpa using hrest
  · intro f hne
    rcases hok f hne with ⟨out, hrun⟩
    rw [hrun]
    rfl
  · intro f he
    rw [runFiling, he]

/-- Witness for the amended C9: with every write succeeding, a one-filing
batch completes with no abort and one processed filing. -/
theorem c9_write_failure_containment_witness :
    (runBatch (fun _ => true) parseW [⟨docFiling, "m2", "t2"⟩]).2 = false ∧
    (runBatch (fun _ => true) parseW [⟨docFiling, "m2", "t2"⟩]).1.length = 1 :=
  (c9_write_failure_containment (fun _ => true) parseW).1 [⟨docFiling, "m2", "t2"⟩] (by
    intro f hf h
    obtain rfl := List.mem_singleton.mp hf
    have hT : (extractMdaEff (fun (_ : String) => true) docFiling ("m2")).isOk = true := rfl
    rw [h] at hT
    exact Bool.noConfusion hT)
